import Mathlib

/-! Shallow embedding of `src/discrete_law/src/lib.rs` (crate `discrete_law`).

Modelling conventions:
* `f64` values are embedded as exact rationals `ℚ`.  All claims settled here
  depend only on the ordering and the field operations of the stored values;
  `OrderedFloat<f64>` comparison on non-NaN floats agrees with the numeric
  order, which `ℚ` provides.  Rounding of `f64` arithmetic is not modelled.
* A Rust panic (out-of-bounds indexing) is embedded as `Option.none`.
* The uniform draw `rng.sample(Uniform::new(0.0, 1.0).unwrap())` is modelled
  by passing the drawn value `u` (with `0 ≤ u < 1`) as an explicit argument.
-/

namespace DiscreteLaw

/-- The `accumulate` adaptor of the `iter_accumulate` crate, as used in
`cdf_from`: emits the running fold `acc + item` for each item, the seed `init`
itself is not emitted. -/
def accumulate (init : ℚ) : List ℚ → List ℚ
  | [] => []
  | x :: xs => (init + x) :: accumulate (init + x) xs

/-- Embedding of `cdf_from` (src/discrete_law/src/lib.rs:45-69): running sum
seeded at `0.0`, then `total = cdf[cdf.len()-1]` (a panic on an empty vector,
modelled as `none`), then every element is divided by `total` in place. -/
def cdf_from (ratios : List ℚ) : Option (List ℚ) :=
  match (accumulate 0 ratios).getLast? with
  | none => none
  | some total => some ((accumulate 0 ratios).map (fun x => x / total))

/-- The Rust type `Result<usize, usize>` returned by `slice::binary_search`. -/
inductive SearchResult where
  | ok (i : ℕ)
  | err (i : ℕ)

/-- The loop of the Rust core function `slice::binary_search_by` (the comparator is
`|p| p.cmp(value)`): while `left < right`, probe `mid = left + size / 2` with
`size = right - left`; on `Less` set `left = mid + 1`, on `Greater` set
`right = mid`, on `Equal` return `Ok(mid)`; after the loop return `Err(left)`.
The `fuel` argument bounds the number of iterations (the Rust loop terminates
because `right - left` strictly decreases); out-of-bounds probes return `0`,
but with `right ≤ c.length` every probe is in bounds. -/
def bsLoop (c : List ℚ) (v : ℚ) : ℕ → ℕ → ℕ → SearchResult
  | left, right, fuel + 1 =>
      if left < right then
        let size := right - left
        let mid := left + size / 2
        let x := c.getD mid 0
        if x < v then bsLoop c v (mid + 1) right fuel
        else if v < x then bsLoop c v left mid fuel
        else .ok mid
      else .err left
  | left, _, 0 => .err left

/-- Embedding of `list.binary_search(&value)`: the loop starts from
`left = 0`, `right = len`; `len + 1` units of fuel are enough since
`right - left` decreases by at least one per iteration. -/
def binarySearchList (c : List ℚ) (v : ℚ) : SearchResult :=
  bsLoop c v 0 c.length (c.length + 1)

/-- Embedding of `position` (src/discrete_law/src/lib.rs:39-43):
`match list.binary_search(&value) { Ok(i) | Err(i) => i }`. -/
def position (list : List ℚ) (value : ℚ) : ℕ :=
  match binarySearchList list value with
  | .ok i => i
  | .err i => i

/-- Embedding of `struct DiscreteFiniteDistribution`
(src/discrete_law/src/lib.rs:75-79). -/
structure DiscreteFiniteDistribution where
  _law : List ℚ
  cdf : List ℚ

/-- Embedding of `DiscreteFiniteDistribution::new`
(src/discrete_law/src/lib.rs:82-95): stores a copy of the law and the table
built by `cdf_from`; `none` when `cdf_from` panics. -/
def DiscreteFiniteDistribution.new (law : List ℚ) :
    Option DiscreteFiniteDistribution :=
  (cdf_from law).map (fun c => ⟨law, c⟩)

/-- Embedding of `impl Distribution<usize> for DiscreteFiniteDistribution`
(src/discrete_law/src/lib.rs:97-102), with the drawn uniform value `u` passed
explicitly: `position(&self.cdf, u)`. -/
def DiscreteFiniteDistribution.sampleIndex (d : DiscreteFiniteDistribution)
    (u : ℚ) : ℕ :=
  position d.cdf u

/-- Embedding of `struct DiscreteFiniteRandomExperiment<T>`
(src/discrete_law/src/lib.rs:105-109). -/
structure DiscreteFiniteRandomExperiment (T : Type) where
  omega : List T
  distribution : DiscreteFiniteDistribution

/-- Embedding of `DiscreteFiniteRandomExperiment::new`
(src/discrete_law/src/lib.rs:112-118): no shape check of any kind; it simply
pairs `omega` with `DiscreteFiniteDistribution::new(law)`. -/
def DiscreteFiniteRandomExperiment.new {T : Type} (omega : List T)
    (law : List ℚ) : Option (DiscreteFiniteRandomExperiment T) :=
  (DiscreteFiniteDistribution.new law).map (fun d => ⟨omega, d⟩)

/-- Embedding of `impl Distribution<T> for DiscreteFiniteRandomExperiment<T>`
(src/discrete_law/src/lib.rs:125-130):
`self.omega[sample(&self.distribution, rng)].clone()`; the unchecked indexing
`omega[i]` is modelled by `List.get?` (`none` = panic). -/
def DiscreteFiniteRandomExperiment.sample {T : Type}
    (e : DiscreteFiniteRandomExperiment T) (u : ℚ) : Option T :=
  e.omega.get? (e.distribution.sampleIndex u)

/-- A deterministic rng: a state type `S` with a step function that returns
the next uniform draw and the next state (models a seeded PRNG driving
`sample`).  `sampleSeq` produces the sequence of `n` labelled samples. -/
def sampleSeq {T S : Type} (e : DiscreteFiniteRandomExperiment T)
    (step : S → ℚ × S) : S → ℕ → List (Option T)
  | _, 0 => []
  | s, n + 1 => e.sample (step s).1 :: sampleSeq e step (step s).2 n

/-! Helper lemmas about `accumulate` and `cdf_from`. -/

theorem accumulate_length (l : List ℚ) : ∀ init, (accumulate init l).length = l.length := by
  induction l with
  | nil => intro init; rfl
  | cons x xs ih => intro init; simp [accumulate, ih]

theorem accumulate_getD (l : List ℚ) :
    ∀ init i, i < l.length →
      (accumulate init l).getD i 0 = init + (l.take (i + 1)).sum := by
  induction l with
  | nil => intro init i h; simp at h
  | cons x xs ih =>
      intro init i h
      cases i with
      | zero => simp [accumulate]
      | succ i =>
          have hi : i < xs.length := by simpa using h
          rw [accumulate, List.getD_cons_succ, ih (init + x) i hi]
          simp [add_assoc]

theorem getLast?_accumulate (l : List ℚ) :
    ∀ init, l ≠ [] → (accumulate init l).getLast? = some (init + l.sum) := by
  induction l with
  | nil => intro init h; exact absurd rfl h
  | cons x xs ih =>
      intro init _
      cases xs with
      | nil => simp [accumulate]
      | cons y ys =>
          have : accumulate (init + x) (y :: ys) =
              (init + x + y) :: accumulate (init + x + y) ys := rfl
          calc (accumulate init (x :: y :: ys)).getLast?
              = ((init + x) :: (init + x + y) :: accumulate (init + x + y) ys).getLast? := by
                rw [accumulate, this]
            _ = (accumulate (init + x) (y :: ys)).getLast? := by
                rw [List.getLast?_cons_cons, this]
            _ = some (init + x + (y :: ys).sum) := ih (init + x) (by simp)
            _ = some (init + (x :: y :: ys).sum) := by simp [add_assoc]

theorem getD_map_div (l : List ℚ) (t : ℚ) (i : ℕ) (h : i < l.length) :
    (l.map (fun x => x / t)).getD i 0 = l.getD i 0 / t := by
  rw [List.getD_eq_getElem (List.map (fun x => x / t) l) 0 (by simpa using h),
    List.getD_eq_getElem l 0 h]
  simp

theorem cdf_from_eq_some (R : List ℚ) (h : R ≠ []) :
    cdf_from R = some ((accumulate 0 R).map (fun x => x / R.sum)) := by
  unfold cdf_from
  rw [getLast?_accumulate R 0 h, zero_add]

theorem cdf_from_ne_nil (R : List ℚ) (c : List ℚ) (h : cdf_from R = some c) :
    R ≠ [] := by
  intro hR
  subst hR
  simp [cdf_from, accumulate] at h

theorem cdf_from_length (R c : List ℚ) (h : cdf_from R = some c) :
    c.length = R.length := by
  rw [cdf_from_eq_some R (cdf_from_ne_nil R c h)] at h
  cases h
  simp [accumulate_length]

theorem cdf_from_getD (R c : List ℚ) (h : cdf_from R = some c)
    (i : ℕ) (hi : i < R.length) :
    c.getD i 0 = (R.take (i + 1)).sum / R.sum := by
  rw [cdf_from_eq_some R (cdf_from_ne_nil R c h)] at h
  cases h
  rw [getD_map_div _ _ _ (by simpa [accumulate_length] using hi),
    accumulate_getD R 0 i hi, zero_add]

theorem cdf_from_last (R c : List ℚ) (h : cdf_from R = some c)
    (hsum : R.sum ≠ 0) :
    c.getD (R.length - 1) 0 = 1 := by
  have hne := cdf_from_ne_nil R c h
  have hlen : 0 < R.length := List.length_pos.2 hne
  rw [cdf_from_getD R c h (R.length - 1) (by omega)]
  have : R.length - 1 + 1 = R.length := by omega
  rw [this, List.take_length, div_self hsum]

theorem take_sum_le_take_sum (R : List ℚ) (hpos : ∀ r ∈ R, 0 ≤ r)
    (i j : ℕ) (hij : i ≤ j) :
    (R.take i).sum ≤ (R.take j).sum := by
  have hsub : (R.take i).Sublist (R.take j) := by
    have : R.take i = (R.take j).take i := by
      rw [List.take_take, inf_of_le_left hij]
    rw [this]
    exact List.take_sublist i (R.take j)
  exact hsub.sum_le_sum (fun a ha => hpos a ((List.take_sublist j R).mem ha))

theorem cdf_from_monotone (R c : List ℚ) (h : cdf_from R = some c)
    (hpos : ∀ r ∈ R, 0 ≤ r) (hsum : 0 < R.sum) :
    ∀ i j, i ≤ j → j < c.length → c.getD i 0 ≤ c.getD j 0 := by
  intro i j hij hj
  have hlen := cdf_from_length R c h
  have hjR : j < R.length := hlen ▸ hj
  have hiR : i < R.length := lt_of_le_of_lt hij hjR
  rw [cdf_from_getD R c h i hiR, cdf_from_getD R c h j hjR]
  exact (div_le_div_iff_of_pos_right hsum).2
    (take_sum_le_take_sum R hpos (i + 1) (j + 1) (by omega))

theorem cdf_from_nonneg (R c : List ℚ) (h : cdf_from R = some c)
    (hpos : ∀ r ∈ R, 0 ≤ r) (hsum : 0 < R.sum) :
    ∀ i, i < c.length → 0 ≤ c.getD i 0 := by
  intro i hi
  have hiR : i < R.length := (cdf_from_length R c h) ▸ hi
  rw [cdf_from_getD R c h i hiR]
  refine div_nonneg ?_ (le_of_lt hsum)
  have : ([] : List ℚ).sum ≤ (R.take (i + 1)).sum := by
    simpa using take_sum_le_take_sum R hpos 0 (i + 1) (by omega)
  simpa using this

/-! Invariant of the binary-search loop and corollaries about `position`. -/

theorem bsLoop_succ (c : List ℚ) (v : ℚ) (left right fuel : ℕ) :
    bsLoop c v left right (fuel + 1) =
      if left < right then
        (if c.getD (left + (right - left) / 2) 0 < v then
          bsLoop c v (left + (right - left) / 2 + 1) right fuel
        else if v < c.getD (left + (right - left) / 2) 0 then
          bsLoop c v left (left + (right - left) / 2) fuel
        else .ok (left + (right - left) / 2))
      else .err left := rfl

theorem bsLoop_spec (c : List ℚ) (v : ℚ)
    (hmono : ∀ i j, i ≤ j → j < c.length → c.getD i 0 ≤ c.getD j 0) :
    ∀ fuel left right, left ≤ right → right ≤ c.length → right - left < fuel →
      (∀ j, j < left → c.getD j 0 < v) →
      (∀ j, right ≤ j → j < c.length → v < c.getD j 0) →
      (match bsLoop c v left right fuel with
       | .ok i => left ≤ i ∧ i < right ∧ c.getD i 0 = v
       | .err i => left ≤ i ∧ i ≤ right ∧ (∀ j, j < i → c.getD j 0 < v) ∧
           (∀ j, i ≤ j → j < c.length → v < c.getD j 0)) := by
  intro fuel
  induction fuel with
  | zero => intro left right _ _ hf _ _; omega
  | succ fuel ih =>
      intro left right hlr hrc hf hlow hhigh
      by_cases hlt : left < right
      · have hmidlt : left + (right - left) / 2 < right := by omega
        have hmidc : left + (right - left) / 2 < c.length := by omega
        by_cases h1 : c.getD (left + (right - left) / 2) 0 < v
        · have hlow' : ∀ j, j < left + (right - left) / 2 + 1 → c.getD j 0 < v := by
            intro j hj
            exact lt_of_le_of_lt (hmono j (left + (right - left) / 2) (by omega) hmidc) h1
          have hrec := ih (left + (right - left) / 2 + 1) right (by omega) hrc (by omega)
            hlow' hhigh
          rw [bsLoop_succ, if_pos hlt, if_pos h1]
          cases hbs : bsLoop c v (left + (right - left) / 2 + 1) right fuel with
          | ok i => rw [hbs] at hrec; exact ⟨by omega, hrec.2⟩
          | err i => rw [hbs] at hrec; exact ⟨by omega, hrec.2⟩
        · by_cases h2 : v < c.getD (left + (right - left) / 2) 0
          · have hhigh' : ∀ j, left + (right - left) / 2 ≤ j → j < c.length →
                v < c.getD j 0 := by
              intro j hj hjc
              exact lt_of_lt_of_le h2 (hmono (left + (right - left) / 2) j hj hjc)
            have hrec := ih left (left + (right - left) / 2) (by omega) (by omega)
              (by omega) hlow hhigh'
            rw [bsLoop_succ, if_pos hlt, if_neg h1, if_pos h2]
            cases hbs : bsLoop c v left (left + (right - left) / 2) fuel with
            | ok i =>
                rw [hbs] at hrec
                exact ⟨hrec.1, by omega, hrec.2.2⟩
            | err i =>
                rw [hbs] at hrec
                exact ⟨hrec.1, by omega, hrec.2.2⟩
          · have heq : c.getD (left + (right - left) / 2) 0 = v :=
              le_antisymm (not_lt.1 h2) (not_lt.1 h1)
            rw [bsLoop_succ, if_pos hlt, if_neg h1, if_neg h2]
            exact ⟨by omega, hmidlt, heq⟩
      · rw [bsLoop_succ, if_neg hlt]
        exact ⟨le_refl left, hlr, hlow, fun j hj hjc => hhigh j (by omega) hjc⟩

/-- For a nondecreasing table, `position` returns an index `i < length` with
`v ≤ c[i]` and `c[j] ≤ v` for every `j < i`, provided some entry is `≥ v`;
moreover either `c[i] = v` (exact match) or every entry before `i` is `< v`
(insertion point). -/
theorem position_spec (c : List ℚ) (v : ℚ)
    (hmono : ∀ i j, i ≤ j → j < c.length → c.getD i 0 ≤ c.getD j 0)
    (hex : ∃ j, j < c.length ∧ v ≤ c.getD j 0) :
    position c v < c.length ∧ v ≤ c.getD (position c v) 0 ∧
      (∀ j, j < position c v → c.getD j 0 ≤ v) ∧
      (c.getD (position c v) 0 = v ∨ ∀ j, j < position c v → c.getD j 0 < v) := by
  have h := bsLoop_spec c v hmono (c.length + 1) 0 c.length (Nat.zero_le _)
    (le_refl _) (by omega) (fun j hj => absurd hj (by omega))
    (fun j hj hjc => absurd hjc (by omega))
  obtain ⟨k, hk, hkv⟩ := hex
  unfold position binarySearchList
  cases hbs : bsLoop c v 0 c.length (c.length + 1) with
  | ok i =>
      rw [hbs] at h
      obtain ⟨-, hir, hiv⟩ := h
      refine ⟨hir, le_of_eq hiv.symm, fun j hj => ?_, Or.inl hiv⟩
      exact hiv ▸ hmono j i (le_of_lt hj) hir
  | err i =>
      rw [hbs] at h
      obtain ⟨-, hir, hbelow, habove⟩ := h
      have hilen : i < c.length := by
        rcases lt_or_eq_of_le hir with h' | h'
        · exact h'
        · exact absurd hkv (not_le.2 (hbelow k (by omega)))
      exact ⟨hilen, le_of_lt (habove i (le_refl i) hilen),
        fun j hj => le_of_lt (hbelow j hj), Or.inr hbelow⟩

/-! More construction helpers. -/

theorem cdf_from_isSome_iff (R : List ℚ) : (cdf_from R).isSome = true ↔ R ≠ [] := by
  constructor
  · intro h hR
    subst hR
    simp [cdf_from, accumulate] at h
  · intro h
    rw [cdf_from_eq_some R h]
    rfl

theorem new_isSome_iff {T : Type} (omega : List T) (law : List ℚ) :
    (DiscreteFiniteRandomExperiment.new omega law).isSome = true ↔ law ≠ [] := by
  rw [← cdf_from_isSome_iff law]
  unfold DiscreteFiniteRandomExperiment.new DiscreteFiniteDistribution.new
  cases cdf_from law <;> simp

theorem new_eq_some {T : Type} (omega : List T) (law : List ℚ)
    (e : DiscreteFiniteRandomExperiment T)
    (h : DiscreteFiniteRandomExperiment.new omega law = some e) :
    ∃ c, cdf_from law = some c ∧
      e = ⟨omega, ⟨law, c⟩⟩ := by
  unfold DiscreteFiniteRandomExperiment.new DiscreteFiniteDistribution.new at h
  rw [Option.map_map, Option.map_eq_some'] at h
  obtain ⟨c, hc, he⟩ := h
  exact ⟨c, hc, he.symm⟩

theorem sum_map_mul (l : List ℚ) (a : ℚ) :
    (l.map (fun x => a * x)).sum = a * l.sum := by
  simpa using List.sum_map_mul_left l id a

theorem accumulate_map_mul (a : ℚ) (l : List ℚ) :
    ∀ init, accumulate (a * init) (l.map (fun x => a * x)) =
      (accumulate init l).map (fun x => a * x) := by
  induction l with
  | nil => intro init; rfl
  | cons x xs ih =>
      intro init
      show (a * init + a * x) :: accumulate (a * init + a * x) (xs.map _) = _
      rw [← mul_add, ih (init + x)]
      rfl

/-! Theorems for the claims. -/

/-- C1, counterexample: on the CDF table built from the ratios `[1, 0, 0, 1]`
(a plateau at value `1/2` spanning indices `0..2`) and the uniform draw
`u = 1/2`, `position` returns `2`, although the smallest index `i` with
`u ≤ C[i]` (and the first plateau endpoint) is `0`: binary search probes the
midpoint and returns the first exact match it encounters, not the leftmost
one. -/
theorem c1_counterexample :
    cdf_from [1, 0, 0, 1] = some [1/2, 1/2, 1/2, 1] ∧
    (0:ℚ) ≤ 1/2 ∧ (1/2:ℚ) < 1 ∧
    (1/2 : ℚ) ≤ List.getD [(1:ℚ)/2, 1/2, 1/2, 1] 0 0 ∧
    position [1/2, 1/2, 1/2, 1] (1/2) = 2 := by
  refine ⟨?_, by norm_num, by norm_num, by norm_num, ?_⟩
  · norm_num [cdf_from, accumulate, List.getLast?]
  · norm_num [position, binarySearchList, bsLoop]

/-- C1, amended: for every CDF table built by `cdf_from` from a valid ratio
vector and every `u` in `[0, 1)`, `position` returns an index `i` such that
`u ≤ C[i]` and `C[j] ≤ u` for every `j < i`; moreover either `C[i] = u`
(exact match, a matching position that need not be the first plateau
endpoint) or every `C[j]` with `j < i` is strictly below `u` (miss: `i` is
the insertion point, the smallest index whose `C` value exceeds `u`). -/
theorem c1_sample_index_amended (R c : List ℚ) (u : ℚ)
    (hpos : ∀ r ∈ R, 0 ≤ r) (hsum : 0 < R.sum) (hc : cdf_from R = some c)
    (_hu0 : 0 ≤ u) (hu1 : u < 1) :
    u ≤ c.getD (position c u) 0 ∧
      (∀ j, j < position c u → c.getD j 0 ≤ u) ∧
      (c.getD (position c u) 0 = u ∨ ∀ j, j < position c u → c.getD j 0 < u) := by
  have hne := cdf_from_ne_nil R c hc
  have hlen := cdf_from_length R c hc
  have hRlen : 0 < R.length := List.length_pos.2 hne
  have hex : ∃ j, j < c.length ∧ u ≤ c.getD j 0 := by
    refine ⟨R.length - 1, by omega, ?_⟩
    rw [cdf_from_last R c hc (ne_of_gt hsum)]
    exact le_of_lt hu1
  have h := position_spec c u (cdf_from_monotone R c hc hpos hsum) hex
  exact ⟨h.2.1, h.2.2.1, h.2.2.2⟩

/-- Witness for the amended theorem of C1 at `R = [1, 3]`, `u = 1/2`. -/
theorem c1_witness :
    (1:ℚ)/2 ≤ List.getD [(1:ℚ)/4, 1] (position [(1:ℚ)/4, 1] (1/2)) 0 ∧
      (∀ j, j < position [(1:ℚ)/4, 1] (1/2) →
        List.getD [(1:ℚ)/4, 1] j 0 ≤ 1/2) ∧
      (List.getD [(1:ℚ)/4, 1] (position [(1:ℚ)/4, 1] (1/2)) 0 = 1/2 ∨
        ∀ j, j < position [(1:ℚ)/4, 1] (1/2) →
          List.getD [(1:ℚ)/4, 1] j 0 < 1/2) :=
  c1_sample_index_amended [1, 3] [1/4, 1] (1/2) (by norm_num) (by norm_num)
    (by norm_num [cdf_from, accumulate, List.getLast?]) (by norm_num) (by norm_num)

/-- C2: for every table built by `cdf_from` from a valid ratio vector (all
entries nonnegative, strictly positive sum) and every `u` with
`0 ≤ u < 1`, the sampled index is strictly below `k`: the error branch
`return k` of the search is unreachable. -/
theorem c2_sample_index_lt (R : List ℚ) (d : DiscreteFiniteDistribution)
    (u : ℚ) (hpos : ∀ r ∈ R, 0 ≤ r) (hsum : 0 < R.sum)
    (hd : DiscreteFiniteDistribution.new R = some d)
    (_hu0 : 0 ≤ u) (hu1 : u < 1) :
    d.sampleIndex u < R.length := by
  unfold DiscreteFiniteDistribution.new at hd
  rw [Option.map_eq_some'] at hd
  obtain ⟨c, hc, hdc⟩ := hd
  have hne := cdf_from_ne_nil R c hc
  have hlen := cdf_from_length R c hc
  have hRlen : 0 < R.length := List.length_pos.2 hne
  have hex : ∃ j, j < c.length ∧ u ≤ c.getD j 0 := by
    refine ⟨R.length - 1, by omega, ?_⟩
    rw [cdf_from_last R c hc (ne_of_gt hsum)]
    exact le_of_lt hu1
  have h := position_spec c u (cdf_from_monotone R c hc hpos hsum) hex
  have : d.sampleIndex u = position c u := by
    rw [← hdc]
    rfl
  rw [this]
  omega

/-- Witness for C2 at `R = [1, 1]`, `u = 0`. -/
theorem c2_witness :
    DiscreteFiniteDistribution.sampleIndex ⟨[1, 1], [1/2, 1]⟩ 0 <
      List.length [(1:ℚ), 1] :=
  c2_sample_index_lt [1, 1] ⟨[1, 1], [1/2, 1]⟩ 0 (by norm_num) (by norm_num)
    (by norm_num [DiscreteFiniteDistribution.new, cdf_from, accumulate,
      List.getLast?])
    le_rfl (by norm_num)

/-- C3, counterexample: the claim predicts an `InvalidLaw` failure on a
zero-sum ratio vector and on negative ratios; in the code `cdf_from` has no
validation and returns a table in both cases. -/
theorem c3_counterexample :
    List.sum [(0:ℚ)] = 0 ∧ (cdf_from [(0:ℚ)]).isSome = true ∧
      (-1:ℚ) < 0 ∧ (cdf_from [(-1:ℚ), 1]).isSome = true := by
  refine ⟨by norm_num, ?_, by norm_num, ?_⟩ <;>
    norm_num [cdf_from, accumulate, List.getLast?]

/-- C3, amended: construction performs no validation at all — `cdf_from`
returns a table for every nonempty ratio vector (zero-sum, negative or
non-finite entries included) and the only construction-time failure is an
index-out-of-bounds panic (modelled as `none`) on an empty vector, not an
`EmptySampleSpace` error; no `InvalidLaw` error exists.  Sampling an index
never raises an error (it is a total function). -/
theorem c3_construction_never_validates (R : List ℚ) :
    (cdf_from R).isSome = true ↔ R ≠ [] :=
  cdf_from_isSome_iff R

/-- Witness for the amended theorem of C3 at the zero-sum vector `[0]`. -/
theorem c3_witness : (cdf_from [(0:ℚ)]).isSome = true :=
  (c3_construction_never_validates [(0:ℚ)]).2 (by simp)

/-- C4, counterexample: with `Ω = ["A", "B"]` and `R = [1, 1, 1]` the lengths
differ, yet `DiscreteFiniteRandomExperiment::new` succeeds: the constructor
performs no shape check and no `ShapeMismatch` error exists. -/
theorem c4_counterexample :
    List.length ["A", "B"] ≠ List.length [(1:ℚ), 1, 1] ∧
      (DiscreteFiniteRandomExperiment.new ["A", "B"] [(1:ℚ), 1, 1]).isSome
        = true := by
  constructor
  · simp
  · exact (new_isSome_iff ["A", "B"] [(1:ℚ), 1, 1]).2 (by simp)

/-- C4, amended: `DiscreteFiniteRandomExperiment::new` performs no shape
check: for every label vector `Ω` and ratio vector `R`, construction succeeds
exactly when `R` is nonempty, regardless of `|Ω|`. -/
theorem c4_new_no_shape_check (T : Type) (omega : List T) (law : List ℚ) :
    (DiscreteFiniteRandomExperiment.new omega law).isSome = true ↔ law ≠ [] :=
  new_isSome_iff omega law

/-- Witness for the amended theorem of C4 at mismatched lengths `1` and `2`. -/
theorem c4_witness :
    (DiscreteFiniteRandomExperiment.new ["A"] [(1:ℚ), 1]).isSome = true :=
  (c4_new_no_shape_check String ["A"] [(1:ℚ), 1]).2 (by simp)

/-- C5: for every valid ratio vector `R` of length `k`, `cdf_from` returns a
table of length `k` whose `i`-th entry is the running sum of the first
`i + 1` ratios divided by the total, i.e.
`C[i] = (Σ_{j≤i} R[j]) / (Σ_{j<k} R[j])`. -/
theorem c5_cdf_values (R c : List ℚ) (_hpos : ∀ r ∈ R, 0 ≤ r)
    (_hsum : 0 < R.sum) (hc : cdf_from R = some c) :
    c.length = R.length ∧
      ∀ i, i < R.length → c.getD i 0 = (R.take (i + 1)).sum / R.sum :=
  ⟨cdf_from_length R c hc, fun i hi => cdf_from_getD R c hc i hi⟩

/-- Witness for C5 at `R = [1, 3]`, whose CDF table is `[1/4, 1]`. -/
theorem c5_witness :
    List.length [(1:ℚ)/4, 1] = List.length [(1:ℚ), 3] ∧
      ∀ i, i < List.length [(1:ℚ), 3] →
        List.getD [(1:ℚ)/4, 1] i 0 =
          (List.take (i + 1) [(1:ℚ), 3]).sum / List.sum [(1:ℚ), 3] :=
  c5_cdf_values [1, 3] [1/4, 1] (by norm_num) (by norm_num)
    (by norm_num [cdf_from, accumulate, List.getLast?])

/-- C7: `build_cdf` is scale invariant: multiplying every ratio by the same
`α > 0` yields exactly the same table (the running sums scale by `α`, the
total scales by `α`, and the quotients agree). -/
theorem c7_scale_invariance (R : List ℚ) (α : ℚ) (hα : 0 < α) :
    cdf_from (R.map (fun r => α * r)) = cdf_from R := by
  by_cases hne : R = []
  · subst hne
    rfl
  · rw [cdf_from_eq_some R hne, cdf_from_eq_some _ (by simp [hne])]
    have hacc : accumulate 0 (R.map (fun r => α * r)) =
        (accumulate 0 R).map (fun x => α * x) := by
      have := accumulate_map_mul α R 0
      rwa [mul_zero] at this
    rw [hacc, sum_map_mul, List.map_map]
    have hpt : ∀ x ∈ accumulate 0 R,
        ((fun x => x / (α * R.sum)) ∘ fun x => α * x) x = x / R.sum := by
      intro x _
      exact mul_div_mul_left x R.sum (ne_of_gt hα)
    rw [List.map_congr_left hpt]

/-- Witness for C7 at `R = [1, 3]`, `α = 2`. -/
theorem c7_witness :
    cdf_from (List.map (fun r => (2:ℚ) * r) [1, 3]) = cdf_from [1, 3] :=
  c7_scale_invariance [1, 3] 2 (by norm_num)

/-- C8: for every valid ratio vector, the table built by `cdf_from` is
monotonically nondecreasing and its first entry is nonnegative.  (The
embedding is purely functional: the table is fixed at construction and never
mutated afterwards.) -/
theorem c8_cdf_sorted (R c : List ℚ) (hpos : ∀ r ∈ R, 0 ≤ r)
    (hsum : 0 < R.sum) (hc : cdf_from R = some c) :
    List.Sorted (· ≤ ·) c ∧ 0 ≤ c.getD 0 0 := by
  have hne := cdf_from_ne_nil R c hc
  have hlen := cdf_from_length R c hc
  have hRlen : 0 < R.length := List.length_pos.2 hne
  constructor
  · rw [List.Sorted, List.pairwise_iff_get]
    intro i j hij
    have h := cdf_from_monotone R c hc hpos hsum i j (le_of_lt hij) j.isLt
    rw [List.getD_eq_getElem c 0 i.isLt, List.getD_eq_getElem c 0 j.isLt] at h
    simpa [List.get_eq_getElem] using h
  · exact cdf_from_nonneg R c hc hpos hsum 0 (by omega)

/-- Witness for C8 at `R = [1, 1]`, whose CDF table is `[1/2, 1]`. -/
theorem c8_witness :
    List.Sorted (· ≤ ·) [(1:ℚ)/2, 1] ∧ 0 ≤ List.getD [(1:ℚ)/2, 1] 0 0 :=
  c8_cdf_sorted [1, 1] [1/2, 1] (by norm_num) (by norm_num)
    (by norm_num [cdf_from, accumulate, List.getLast?])

/-- C9: two experiments built from the same `(Ω, R)` and driven by rngs with
the same seed (the same state and step function, hence the same stream of
uniform draws) produce identical sample sequences: the sampled label is a
deterministic function of the experiment and the consumed uniform values. -/
theorem c9_deterministic_replay (T S : Type) (omega : List T) (law : List ℚ)
    (e₁ e₂ : DiscreteFiniteRandomExperiment T)
    (h₁ : DiscreteFiniteRandomExperiment.new omega law = some e₁)
    (h₂ : DiscreteFiniteRandomExperiment.new omega law = some e₂)
    (step : S → ℚ × S) (s : S) (n : ℕ) :
    sampleSeq e₁ step s n = sampleSeq e₂ step s n := by
  rw [h₁] at h₂
  rw [Option.some.inj h₂]

/-- Witness for C9 at `Ω = ["A"]`, `R = [1]`, a counter rng and two draws. -/
theorem c9_witness :
    sampleSeq (⟨["A"], ⟨[1], [1]⟩⟩ : DiscreteFiniteRandomExperiment String)
        (fun s : ℕ => ((0:ℚ), s + 1)) 0 2 =
      sampleSeq (⟨["A"], ⟨[1], [1]⟩⟩ : DiscreteFiniteRandomExperiment String)
        (fun s : ℕ => ((0:ℚ), s + 1)) 0 2 :=
  c9_deterministic_replay String ℕ ["A"] [1] _ _
    (by norm_num [DiscreteFiniteRandomExperiment.new,
      DiscreteFiniteDistribution.new, cdf_from, accumulate, List.getLast?])
    (by norm_num [DiscreteFiniteRandomExperiment.new,
      DiscreteFiniteDistribution.new, cdf_from, accumulate, List.getLast?])
    (fun s : ℕ => ((0:ℚ), s + 1)) 0 2

/-- C10: the labelled sample is `omega[i]` for the drawn index `i`, with no
bounds handling.  Under the precondition `|law| ≤ |omega|` (with a valid law
and `u ∈ [0, 1)`) the lookup is always in bounds and the sample is an element
of `Ω`; but since the constructor accepts mismatched lengths, for
`Ω = ["A"]`, `R = [1, 1]`, `u = 3/5` the lookup `omega[1]` is out of bounds
and sampling panics (modelled as `none`): sampling is partial. -/
theorem c10_labeled_sample :
    (∀ (T : Type) (omega : List T) (law : List ℚ)
        (e : DiscreteFiniteRandomExperiment T) (u : ℚ),
        DiscreteFiniteRandomExperiment.new omega law = some e →
        (∀ r ∈ law, 0 ≤ r) → 0 < law.sum → 0 ≤ u → u < 1 →
        law.length ≤ omega.length →
        ∃ t, e.sample u = some t ∧ t ∈ omega) ∧
    (∀ e : DiscreteFiniteRandomExperiment String,
        DiscreteFiniteRandomExperiment.new ["A"] [(1:ℚ), 1] = some e →
        e.sample (3/5) = none) := by
  constructor
  · intro T omega law e u hnew hpos hsum _hu0 hu1 hlenle
    obtain ⟨c, hc, he⟩ := new_eq_some omega law e hnew
    subst he
    have hne := cdf_from_ne_nil law c hc
    have hlen := cdf_from_length law c hc
    have hRlen : 0 < law.length := List.length_pos.2 hne
    have hex : ∃ j, j < c.length ∧ u ≤ c.getD j 0 := by
      refine ⟨law.length - 1, by omega, ?_⟩
      rw [cdf_from_last law c hc (ne_of_gt hsum)]
      exact le_of_lt hu1
    have h := position_spec c u (cdf_from_monotone law c hc hpos hsum) hex
    have hidx : position c u < omega.length := by omega
    refine ⟨omega.get ⟨position c u, hidx⟩, ?_, List.get_mem omega _ hidx⟩
    show omega.get? (position c u) = _
    exact List.get?_eq_get hidx
  · intro e hnew
    obtain ⟨c, hc, he⟩ := new_eq_some ["A"] [(1:ℚ), 1] e hnew
    have : c = [1/2, 1] := by
      have h2 : cdf_from [(1:ℚ), 1] = some [1/2, 1] := by
        norm_num [cdf_from, accumulate, List.getLast?]
      rw [h2] at hc
      exact (Option.some.inj hc).symm
    subst this
    subst he
    show List.get? ["A"] (position [1/2, 1] (3/5)) = none
    norm_num [position, binarySearchList, bsLoop]

/-- Witness for the in-bounds part of C10 at `Ω = ["A"]`, `R = [1]`, `u = 0`. -/
theorem c10_witness :
    ∃ t, DiscreteFiniteRandomExperiment.sample
        (⟨["A"], ⟨[1], [1]⟩⟩ : DiscreteFiniteRandomExperiment String) 0
        = some t ∧ t ∈ ["A"] :=
  c10_labeled_sample.1 String ["A"] [1] ⟨["A"], ⟨[1], [1]⟩⟩ 0
    (by norm_num [DiscreteFiniteRandomExperiment.new,
      DiscreteFiniteDistribution.new, cdf_from, accumulate, List.getLast?])
    (by norm_num) (by norm_num) le_rfl (by norm_num) (by norm_num)

end DiscreteLaw
